import Mathlib

/-!
Verification of the image-bank PDF pipeline (src/index.js).

The pipeline normalizes a folder of images (pass-through or resize), chunks
the normalized list into groups of 15, lays each chunk out on fixed-geometry
pages, generates one intermediate PDF per chunk in parallel, merges the
intermediate PDFs in sequence-index order, and cleans up the working folders
after a successful merge.

Shallow embedding conventions:
  - machine integers and byte counts are `Nat`; the JS floating-point size
    test `stats.size / (1024*1024) > 2` is embedded over `ℚ` (division by a
    power of two is exact for these magnitudes, so the comparison agrees);
  - external collaborators (sharp, pdfkit, pdf-lib) are modelled at their
    interface: decodability, resize success and resized bytes are fields of
    an abstract `Compressor`; pdfkit page/image emission is recorded as an
    explicit layout state; exceptions become `Option`/flags;
  - file-system writes are recorded as explicit write records so that
    "the source folder is never written" is a provable statement.
-/

namespace ImgBank

/-! ## Constants (src/index.js lines 12-18, 83-90) -/

def inputFolder : String := "./IMG_BANK_ACR_TOTAL"

/-- `./IMG_BANK_COMPRESSED_${formattedDate}`; the run date is a parameter. -/
def compressedFolder (formattedDate : String) : String :=
  "./IMG_BANK_COMPRESSED_" ++ formattedDate

/-- `./output_pdfs_${formattedDate}`. -/
def pdfFolder (formattedDate : String) : String :=
  "./output_pdfs_" ++ formattedDate

def MAX_IMAGE_SIZE_MB : ℚ := 2

def TARGET_WIDTH : Nat := 1920

def IMAGES_PER_FILE : Nat := 15

def PAGE_WIDTH : Nat := 600

def PAGE_HEIGHT : Nat := 800

def IMAGE_MAX_WIDTH : Nat := 150

def IMAGE_MAX_HEIGHT : Nat := 100

def MARGIN_X : Nat := 25

def MARGIN_Y : Nat := 25

def SPACING_X : Nat := 10

def SPACING_Y : Nat := 10

/-- The extension filter `['.jpg', '.jpeg', '.png']` (lines 50-52, 137-139). -/
def validExts : List String := [".jpg", ".jpeg", ".png"]

/-! ## Chunker (src/index.js lines 141-145)

`for (let i = 0; i < files.length; i += IMAGES_PER_FILE)` pushes
`files.slice(i, i + IMAGES_PER_FILE)`; equivalently, peel the first
`IMAGES_PER_FILE` elements off the list while it is nonempty. The loop runs
at most `files.length` times, so it is embedded with that iteration bound as
structural fuel. -/

def chunksGo {α : Type} : Nat → List α → List (List α)
  | _, [] => []
  | 0, _ :: _ => []
  | fuel + 1, a :: l =>
      (a :: l).take IMAGES_PER_FILE :: chunksGo fuel ((a :: l).drop IMAGES_PER_FILE)

def chunks15 {α : Type} (l : List α) : List (List α) := chunksGo l.length l

theorem chunksGo_nil {α : Type} (fuel : Nat) :
    chunksGo fuel ([] : List α) = [] := by
  cases fuel <;> rfl

theorem chunksGo_eq_of_le {α : Type} :
    ∀ (f1 f2 : Nat) (l : List α), l.length ≤ f1 → l.length ≤ f2 →
      chunksGo f1 l = chunksGo f2 l := by
  intro f1
  induction f1 with
  | zero =>
    intro f2 l h1 _
    have : l = [] := List.eq_nil_of_length_eq_zero (Nat.le_zero.mp h1)
    subst this
    rw [chunksGo_nil, chunksGo_nil]
  | succ f1 ih =>
    intro f2 l h1 h2
    cases l with
    | nil => rw [chunksGo_nil, chunksGo_nil]
    | cons a t =>
      cases f2 with
      | zero => simp at h2
      | succ f2 =>
        have e1 : chunksGo (f1 + 1) (a :: t) =
            (a :: t).take IMAGES_PER_FILE :: chunksGo f1 ((a :: t).drop IMAGES_PER_FILE) := rfl
        have e2 : chunksGo (f2 + 1) (a :: t) =
            (a :: t).take IMAGES_PER_FILE :: chunksGo f2 ((a :: t).drop IMAGES_PER_FILE) := rfl
        rw [e1, e2]
        have hl1 : ((a :: t).drop IMAGES_PER_FILE).length ≤ f1 := by
          simp only [List.length_drop, List.length_cons, IMAGES_PER_FILE]
          simp only [List.length_cons] at h1
          omega
        have hl2 : ((a :: t).drop IMAGES_PER_FILE).length ≤ f2 := by
          simp only [List.length_drop, List.length_cons, IMAGES_PER_FILE]
          simp only [List.length_cons] at h2
          omega
        rw [ih f2 _ hl1 hl2]

theorem chunks15_nil {α : Type} : chunks15 ([] : List α) = [] := rfl

theorem chunks15_cons {α : Type} (a : α) (l : List α) :
    chunks15 (a :: l) =
      (a :: l).take IMAGES_PER_FILE :: chunks15 ((a :: l).drop IMAGES_PER_FILE) := by
  have e : chunks15 (a :: l) =
      (a :: l).take IMAGES_PER_FILE :: chunksGo l.length ((a :: l).drop IMAGES_PER_FILE) := rfl
  rw [e, chunks15]
  refine congrArg _ (chunksGo_eq_of_le l.length _ _ ?_ le_rfl)
  simp only [List.length_drop, List.length_cons, IMAGES_PER_FILE]
  omega

theorem chunks15_eq_nil_iff {α : Type} (l : List α) : chunks15 l = [] ↔ l = [] := by
  cases l with
  | nil => simp [chunks15_nil]
  | cons a l => simp [chunks15_cons]

/-- Induction principle following the chunking recursion: peel
`IMAGES_PER_FILE` elements off a nonempty list. -/
theorem chunks15_ind {α : Type} (P : List α → Prop) (h0 : P [])
    (hstep : ∀ a l, P ((a :: l).drop IMAGES_PER_FILE) → P (a :: l)) :
    ∀ l, P l := by
  have key : ∀ n (l : List α), l.length ≤ n → P l := by
    intro n
    induction n with
    | zero =>
      intro l hl
      have : l = [] := List.eq_nil_of_length_eq_zero (Nat.le_zero.mp hl)
      exact this ▸ h0
    | succ n ih =>
      intro l hl
      cases l with
      | nil => exact h0
      | cons a t =>
        refine hstep a t (ih _ ?_)
        simp only [List.length_drop, List.length_cons, IMAGES_PER_FILE]
        simp only [List.length_cons] at hl
        omega
  exact fun l => key l.length l le_rfl

theorem chunks15_join {α : Type} (l : List α) : (chunks15 l).flatten = l := by
  induction l using chunks15_ind with
  | h0 => simp [chunks15_nil]
  | hstep a l ih => rw [chunks15_cons]; simp [ih]

theorem chunks15_length {α : Type} (l : List α) :
    (chunks15 l).length = (l.length + (IMAGES_PER_FILE - 1)) / IMAGES_PER_FILE := by
  induction l using chunks15_ind with
  | h0 => simp [chunks15_nil, IMAGES_PER_FILE]
  | hstep a l ih =>
    rw [chunks15_cons]
    simp only [List.length_cons, List.length_drop, IMAGES_PER_FILE] at ih ⊢
    omega

theorem chunks15_dropLast {α : Type} (l : List α) :
    ∀ c ∈ (chunks15 l).dropLast, c.length = IMAGES_PER_FILE := by
  induction l using chunks15_ind with
  | h0 => simp [chunks15_nil]
  | hstep a l ih =>
    rw [chunks15_cons]
    by_cases h : (a :: l).drop IMAGES_PER_FILE = []
    · simp [h, chunks15_nil]
    · intro c hc
      rw [List.dropLast_cons_of_ne_nil (by simp [chunks15_eq_nil_iff, h])] at hc
      rcases List.mem_cons.mp hc with hc | hc
      · subst hc
        have hlen : IMAGES_PER_FILE ≤ (a :: l).length := by
          by_contra hlt
          exact h (List.drop_eq_nil_of_le (le_of_not_le hlt))
        rw [List.length_take]
        exact Nat.min_eq_left hlen
      · exact ih c hc

/-- Claim C1: for every list of N normalized images, the chunker produces
exactly ceil(N / 15) chunks; every chunk except possibly the last has exactly
15 images; and concatenating the chunks in ascending sequence-index order
reproduces the input list exactly, with no duplicates or omissions. -/
theorem chunker_correct {α : Type} (l : List α) :
    (chunks15 l).length = (l.length + (IMAGES_PER_FILE - 1)) / IMAGES_PER_FILE ∧
    (∀ c ∈ (chunks15 l).dropLast, c.length = IMAGES_PER_FILE) ∧
    (chunks15 l).flatten = l :=
  ⟨chunks15_length l, chunks15_dropLast l, chunks15_join l⟩

/-- Witness for C1 at the spec's 32-image example: 3 chunks, the first chunk
is full, and concatenation restores the input. -/
theorem chunker_correct_witness :
    (chunks15 (List.range 32)).length = 3 ∧
    ((List.range 32).take IMAGES_PER_FILE).length = IMAGES_PER_FILE ∧
    (chunks15 (List.range 32)).flatten = List.range 32 := by
  have h := chunker_correct (List.range 32)
  refine ⟨?_, ?_, h.2.2⟩
  · rw [h.1]; decide
  · refine h.2.1 ((List.range 32).take IMAGES_PER_FILE) ?_
    decide

/-! ## Page layout engine / intermediate document builder (src/index.js 75-133)

`createPDF` iterates `images.forEach((file, index) => ...)` with a mutable
cursor `(x, y)` and a growing document. The whole loop body sits in a
`try`; pdfkit's `doc.openImage` (line 99) and `doc.image` (line 111) can
throw, in which case the `catch` (line 122-124) logs and the iteration ends —
nothing after the throwing line runs. `FailPoint` records where the external
writer throws for a given image file, `none` meaning it succeeds. -/

inductive FailPoint : Type
  | atOpen
  | atPlace
deriving DecidableEq

structure ImgFile where
  name : String
  width : Nat
  height : Nat
  failAt : Option FailPoint
deriving DecidableEq

/-- One emitted image cell: `doc.image(filePath, x, y, {width, height})` plus
its caption text; `page` is the 1-based page it lands on. -/
structure Placement where
  name : String
  x : Nat
  y : Nat
  w : ℚ
  h : ℚ
  page : Nat
deriving DecidableEq

structure LayoutState where
  x : Nat
  y : Nat
  pages : Nat
  placed : List Placement
  errors : List String
deriving DecidableEq

/-- `Math.min(IMAGE_MAX_WIDTH / img.width, IMAGE_MAX_HEIGHT / img.height)`
(line 107). -/
def scaleOf (img : ImgFile) : ℚ :=
  min ((IMAGE_MAX_WIDTH : ℚ) / (img.width : ℚ))
    ((IMAGE_MAX_HEIGHT : ℚ) / (img.height : ℚ))

def scaledWidth (img : ImgFile) : ℚ := (img.width : ℚ) * scaleOf img

def scaledHeight (img : ImgFile) : ℚ := (img.height : ℚ) * scaleOf img

/-- Body of the `forEach` at src/index.js lines 95-125 for one image. -/
def placeStep (s : LayoutState) (img : ImgFile) (index : Nat) : LayoutState :=
  if img.failAt = some FailPoint.atOpen then
    { s with errors := s.errors ++ [img.name] }
  else
    let s1 :=
      if index % IMAGES_PER_FILE = 0 then
        { s with pages := s.pages + 1, x := MARGIN_X, y := MARGIN_Y }
      else s
    if img.failAt = some FailPoint.atPlace then
      { s1 with errors := s1.errors ++ [img.name] }
    else
      let s2 := { s1 with
        placed := s1.placed ++
          [Placement.mk img.name s1.x s1.y (scaledWidth img) (scaledHeight img) s1.pages] }
      let x1 := s2.x + IMAGE_MAX_WIDTH + SPACING_X
      if x1 + IMAGE_MAX_WIDTH > PAGE_WIDTH - MARGIN_X then
        { s2 with x := MARGIN_X, y := s2.y + IMAGE_MAX_HEIGHT + SPACING_Y + 20 }
      else
        { s2 with x := x1 }

/-- Normal form of a successful step at a page-break index: new page, cursor
reset, image placed at the top-left margin, then one horizontal advance
(25 + 150 + 10 + 150 = 335 never exceeds 600 - 25, so no wrap). -/
theorem placeStep_success_break (s : LayoutState) (img : ImgFile) (index : Nat)
    (h : img.failAt = none) (hidx : index % IMAGES_PER_FILE = 0) :
    placeStep s img index =
      LayoutState.mk (MARGIN_X + IMAGE_MAX_WIDTH + SPACING_X) MARGIN_Y (s.pages + 1)
        (s.placed ++
          [Placement.mk img.name MARGIN_X MARGIN_Y (scaledWidth img) (scaledHeight img)
            (s.pages + 1)])
        s.errors := by
  simp [placeStep, h, hidx, MARGIN_X, MARGIN_Y, IMAGE_MAX_WIDTH, SPACING_X, PAGE_WIDTH]

/-- Normal form of a successful step at a non-break index: image placed at the
current cursor, then advance and possibly wrap. -/
theorem placeStep_success_mid (s : LayoutState) (img : ImgFile) (index : Nat)
    (h : img.failAt = none) (hidx : ¬ index % IMAGES_PER_FILE = 0) :
    placeStep s img index =
      if s.x + IMAGE_MAX_WIDTH + SPACING_X + IMAGE_MAX_WIDTH > PAGE_WIDTH - MARGIN_X then
        LayoutState.mk MARGIN_X (s.y + IMAGE_MAX_HEIGHT + SPACING_Y + 20) s.pages
          (s.placed ++
            [Placement.mk img.name s.x s.y (scaledWidth img) (scaledHeight img) s.pages])
          s.errors
      else
        LayoutState.mk (s.x + IMAGE_MAX_WIDTH + SPACING_X) s.y s.pages
          (s.placed ++
            [Placement.mk img.name s.x s.y (scaledWidth img) (scaledHeight img) s.pages])
          s.errors := by
  simp only [placeStep, h, hidx, reduceCtorEq, ite_false, iff_false, eq_self_iff_true]

def layoutFrom : Nat → LayoutState → List ImgFile → LayoutState
  | _, s, [] => s
  | index, s, img :: rest => layoutFrom (index + 1) (placeStep s img index) rest

def initLayout : LayoutState := ⟨MARGIN_X, MARGIN_Y, 0, [], []⟩

/-- `createPDF(images, pdfIndex)`: run the layout loop from a fresh cursor. -/
def createPDF (images : List ImgFile) : LayoutState := layoutFrom 0 initLayout images

/-- The intermediate document path
`${pdfFolder}/IMG_BANK_ACR_${formattedDate}_output_${pdfIndex}.pdf`. -/
def pdfOutputPath (formattedDate : String) (pdfIndex : Nat) : String :=
  pdfFolder formattedDate ++ "/IMG_BANK_ACR_" ++ formattedDate ++ "_output_" ++
    toString pdfIndex ++ ".pdf"

/-! ## Merger (src/index.js lines 153-166)

`mergePDFs` folds over the intermediate documents in list order, appending
each document's full page sequence (`copyPages(pdfDoc, pdfDoc.getPageIndices())`
preserves intra-document order) to the aggregate. Pages are kept abstract. -/

def mergePDFs {α : Type} (docs : List (List α)) : List α :=
  docs.foldl (fun merged doc => merged ++ doc) []

theorem mergePDFs_eq_flatten {α : Type} (docs : List (List α)) :
    mergePDFs docs = docs.flatten := by
  have key : ∀ (docs : List (List α)) (acc : List α),
      docs.foldl (fun merged doc => merged ++ doc) acc = acc ++ docs.flatten := by
    intro docs
    induction docs with
    | nil => intro acc; simp
    | cons d rest ih => intro acc; simp [List.foldl_cons, ih]
  simpa using key docs []

/-- Claim C2: the final document's page sequence is the concatenation, in
ascending sequence-index order, of each intermediate document's pages in
their original intra-document order; hence the final page count is the sum of
the intermediate page counts. -/
theorem merger_correct {α : Type} (docs : List (List α)) :
    mergePDFs docs = docs.flatten ∧
    (mergePDFs docs).length = (docs.map List.length).sum :=
  ⟨mergePDFs_eq_flatten docs,
    by rw [mergePDFs_eq_flatten]; simp [List.length_flatten]⟩

/-! ## Per-step layout lemmas -/

theorem placeStep_pages_success (s : LayoutState) (img : ImgFile) (index : Nat)
    (h : img.failAt = none) :
    (placeStep s img index).pages =
      s.pages + (if index % IMAGES_PER_FILE = 0 then 1 else 0) := by
  by_cases hidx : index % IMAGES_PER_FILE = 0
  · rw [placeStep_success_break s img index h hidx, if_pos hidx]
  · rw [placeStep_success_mid s img index h hidx, if_neg hidx]
    split <;> simp

theorem placeStep_cursor_success (s : LayoutState) (img : ImgFile) (index : Nat)
    (h : img.failAt = none) :
    ∃ p : Placement,
      (placeStep s img index).placed = s.placed ++ [p] ∧ p.name = img.name ∧
      (index % IMAGES_PER_FILE = 0 → p.x = MARGIN_X ∧ p.y = MARGIN_Y) ∧
      (¬ index % IMAGES_PER_FILE = 0 → p.x = s.x ∧ p.y = s.y) ∧
      (p.x + IMAGE_MAX_WIDTH + SPACING_X + IMAGE_MAX_WIDTH > PAGE_WIDTH - MARGIN_X →
        (placeStep s img index).x = MARGIN_X ∧
        (placeStep s img index).y = p.y + (IMAGE_MAX_HEIGHT + SPACING_Y + 20)) ∧
      (¬ p.x + IMAGE_MAX_WIDTH + SPACING_X + IMAGE_MAX_WIDTH > PAGE_WIDTH - MARGIN_X →
        (placeStep s img index).x = p.x + (IMAGE_MAX_WIDTH + SPACING_X) ∧
        (placeStep s img index).y = p.y) := by
  by_cases hidx : index % IMAGES_PER_FILE = 0
  · rw [placeStep_success_break s img index h hidx]
    refine ⟨Placement.mk img.name MARGIN_X MARGIN_Y (scaledWidth img) (scaledHeight img)
      (s.pages + 1), rfl, rfl, fun _ => ⟨rfl, rfl⟩, fun hc => absurd hidx hc, ?_, ?_⟩ <;>
      simp [MARGIN_X, MARGIN_Y, IMAGE_MAX_WIDTH, IMAGE_MAX_HEIGHT, SPACING_X,
        SPACING_Y, PAGE_WIDTH]
  · rw [placeStep_success_mid s img index h hidx]
    refine ⟨Placement.mk img.name s.x s.y (scaledWidth img) (scaledHeight img) s.pages,
      ?_, rfl, fun hc => absurd hc hidx, fun _ => ⟨rfl, rfl⟩, ?_, ?_⟩
    · split <;> rfl
    · intro hgt
      rw [if_pos (by exact hgt)]
      exact ⟨rfl, by ring⟩
    · intro hle
      rw [if_neg (by exact hle)]
      exact ⟨by ring, rfl⟩

theorem placeStep_failed (s : LayoutState) (img : ImgFile) (index : Nat)
    (h : img.failAt.isSome) :
    (placeStep s img index).placed = s.placed ∧
    (placeStep s img index).errors = s.errors ++ [img.name] ∧
    ((placeStep s img index).x = s.x ∧ (placeStep s img index).y = s.y ∨
      index % IMAGES_PER_FILE = 0 ∧ (placeStep s img index).x = MARGIN_X ∧
        (placeStep s img index).y = MARGIN_Y) := by
  rcases Option.isSome_iff_exists.mp h with ⟨fp, hfp⟩
  cases fp with
  | atOpen => simp [placeStep, hfp]
  | atPlace =>
    by_cases hidx : index % IMAGES_PER_FILE = 0 <;>
      simp [placeStep, hfp, hidx]

/-- Claim C5: after each successfully placed image the x cursor advances by
cell max width (150) plus horizontal spacing (10); whenever the advanced
cursor's next cell right edge (x plus cell max width) would exceed the page
width (600) minus the right margin (25), x resets to the left margin (25) and
y advances by cell max height (100) + vertical spacing (10) + the 20-unit
caption allowance. -/
theorem cursor_advance_rule (s : LayoutState) (img : ImgFile) (index : Nat)
    (h : img.failAt = none) :
    ∃ p : Placement,
      (placeStep s img index).placed = s.placed ++ [p] ∧
      (p.x + IMAGE_MAX_WIDTH + SPACING_X + IMAGE_MAX_WIDTH > PAGE_WIDTH - MARGIN_X →
        (placeStep s img index).x = MARGIN_X ∧
        (placeStep s img index).y = p.y + (IMAGE_MAX_HEIGHT + SPACING_Y + 20)) ∧
      (¬ p.x + IMAGE_MAX_WIDTH + SPACING_X + IMAGE_MAX_WIDTH > PAGE_WIDTH - MARGIN_X →
        (placeStep s img index).x = p.x + (IMAGE_MAX_WIDTH + SPACING_X) ∧
        (placeStep s img index).y = p.y) := by
  obtain ⟨p, h1, _, _, _, h5, h6⟩ := placeStep_cursor_success s img index h
  exact ⟨p, h1, h5, h6⟩

/-- Witness for C5: placing a 3000x2000 image at the cursor position
(505, 25) wraps to the next row: x back to the margin, y advanced by 130. -/
theorem cursor_advance_rule_witness :
    ∃ p : Placement,
      (placeStep (LayoutState.mk 505 25 1 [] []) (ImgFile.mk ("a.jpg") 3000 2000 none) 3).placed =
        [] ++ [p] ∧
      (placeStep (LayoutState.mk 505 25 1 [] []) (ImgFile.mk ("a.jpg") 3000 2000 none) 3).x =
        MARGIN_X ∧
      (placeStep (LayoutState.mk 505 25 1 [] []) (ImgFile.mk ("a.jpg") 3000 2000 none) 3).y =
        p.y + (IMAGE_MAX_HEIGHT + SPACING_Y + 20) := by
  obtain ⟨p, h1, h2, h3⟩ :=
    cursor_advance_rule (LayoutState.mk 505 25 1 [] []) (ImgFile.mk ("a.jpg") 3000 2000 none) 3 rfl
  have hx : [p.x] = [505] := by
    have := congrArg (List.map Placement.x) h1
    simp only [List.nil_append, List.map_cons, List.map_nil] at this
    rw [← this]
    decide
  have hcond : p.x + IMAGE_MAX_WIDTH + SPACING_X + IMAGE_MAX_WIDTH >
      PAGE_WIDTH - MARGIN_X := by
    have hx505 : p.x = 505 := List.head_eq_of_cons_eq hx
    rw [hx505]
    decide
  exact ⟨p, h1, (h2 hcond).1, (h2 hcond).2⟩

/-! ## Page breaks (claim C4) -/

theorem layoutFrom_pages_of_no_break :
    ∀ (imgs : List ImgFile) (index : Nat) (s : LayoutState),
      (∀ i ∈ imgs, i.failAt = none) → 1 ≤ index → index + imgs.length ≤ IMAGES_PER_FILE →
      (layoutFrom index s imgs).pages = s.pages := by
  intro imgs
  induction imgs with
  | nil => intro index s _ _ _; rfl
  | cons img rest ih =>
    intro index s hall h1 h2
    rw [layoutFrom]
    have hidx : ¬ index % IMAGES_PER_FILE = 0 := by
      have hlt : index < IMAGES_PER_FILE := by
        simp only [List.length_cons] at h2
        omega
      rw [Nat.mod_eq_of_lt hlt]
      omega
    rw [ih (index + 1) _ (fun i hi => hall i (List.mem_cons_of_mem _ hi)) (by omega)
      (by simp only [List.length_cons] at h2; omega)]
    rw [placeStep_pages_success s img index (hall img (List.mem_cons_self _ _)), if_neg hidx]
    omega

theorem createPDF_pages_one (imgs : List ImgFile) (hall : ∀ i ∈ imgs, i.failAt = none)
    (h1 : 1 ≤ imgs.length) (h2 : imgs.length ≤ IMAGES_PER_FILE) :
    (createPDF imgs).pages = 1 := by
  cases imgs with
  | nil => simp at h1
  | cons img rest =>
    rw [createPDF, layoutFrom]
    rw [layoutFrom_pages_of_no_break rest 1 _ (fun i hi => hall i (List.mem_cons_of_mem _ hi))
      le_rfl (by simp only [List.length_cons] at h2; omega)]
    rw [placeStep_pages_success _ _ _ (hall img (List.mem_cons_self _ _))]
    simp [initLayout, IMAGES_PER_FILE]

/-- Claim C4: during layout of a chunk whose images all place successfully, a
new page is started (with the cursor reset to the top-left margin so the
placement lands there) exactly before the images whose index within the chunk
is a multiple of the per-page capacity 15; consequently every chunk of 1 to 15
images yields an intermediate document with exactly one page. -/
theorem page_break_rule :
    (∀ (s : LayoutState) (img : ImgFile) (index : Nat), img.failAt = none →
      (placeStep s img index).pages =
        s.pages + (if index % IMAGES_PER_FILE = 0 then 1 else 0) ∧
      (index % IMAGES_PER_FILE = 0 → ∃ p : Placement,
        (placeStep s img index).placed = s.placed ++ [p] ∧
        p.x = MARGIN_X ∧ p.y = MARGIN_Y)) ∧
    (∀ imgs : List ImgFile, (∀ i ∈ imgs, i.failAt = none) →
      1 ≤ imgs.length → imgs.length ≤ IMAGES_PER_FILE →
      (createPDF imgs).pages = 1) := by
  constructor
  · intro s img index h
    refine ⟨placeStep_pages_success s img index h, fun hidx => ?_⟩
    obtain ⟨p, hp1, _, hp3, _⟩ := placeStep_cursor_success s img index h
    exact ⟨p, hp1, hp3 hidx⟩
  · exact createPDF_pages_one

/-- Witness for C4: a 2-image chunk yields exactly one page. -/
theorem page_break_rule_witness :
    (createPDF [ImgFile.mk ("a.jpg") 3000 2000 none, ImgFile.mk ("b.jpg") 800 600 none]).pages
      = 1 :=
  page_break_rule.2 [ImgFile.mk ("a.jpg") 3000 2000 none, ImgFile.mk ("b.jpg") 800 600 none]
    (by decide) (by decide) (by decide)

/-! ## Placement-failure behavior (claim C3)

The `catch` at src/index.js lines 122-124 runs before the cursor-advance
lines 117-121 ever execute for the failed image, so the cursor is NOT
advanced past the failed cell: the next successful image is placed at the
very position the failed image would have occupied. -/

def imgA : ImgFile := ImgFile.mk ("a.jpg") 3000 2000 none

def imgB : ImgFile := ImgFile.mk ("b.jpg") 3000 2000 (some FailPoint.atOpen)

def imgC : ImgFile := ImgFile.mk ("c.jpg") 3000 2000 none

/-- Counterexample to C3 as stated: in the chunk `[imgA, imgB, imgC]` where
`imgB` fails to open, image A is placed at (25, 25) and image C at (185, 25)
— the very cell position B would have occupied. Had the cursor advanced past
the skipped cell "exactly as if the image had been placed", C would sit at
(345, 25) and a blank gap would remain at (185, 25); no placement at x = 345
exists. -/
theorem placement_skip_counterexample :
    ((createPDF [imgA, imgB, imgC]).placed.map fun p => (p.name, p.x, p.y)) =
      [("a.jpg", 25, 25), ("c.jpg", 185, 25)] ∧
    (createPDF [imgA, imgB, imgC]).errors = ["b.jpg"] ∧
    ¬ ∃ p ∈ (createPDF [imgA, imgB, imgC]).placed, p.name = "c.jpg" ∧ p.x = 345 := by
  refine ⟨by decide, by decide, by decide⟩

/-- Claim C3 amended: an image whose cell computation or emission fails is
logged and skipped and the rest of the chunk is still processed, but the
row/column cursor does NOT advance past the skipped cell: when the failure is
at `openImage` the layout state is entirely unchanged, and in every failure
case the cursor is either left where it was (so the next image occupies the
failed image's position, compacting the grid) or — only when the failure hits
after a page break at a multiple-of-15 index — sits at the fresh page's
top-left margin. -/
theorem placement_failure_amended :
    (∀ (s : LayoutState) (index : Nat) (img : ImgFile) (rest : List ImgFile),
      img.failAt = some FailPoint.atOpen →
      layoutFrom index s (img :: rest) =
        layoutFrom (index + 1) { s with errors := s.errors ++ [img.name] } rest) ∧
    (∀ (s : LayoutState) (img : ImgFile) (index : Nat), img.failAt.isSome →
      (placeStep s img index).placed = s.placed ∧
      (placeStep s img index).errors = s.errors ++ [img.name] ∧
      ((placeStep s img index).x = s.x ∧ (placeStep s img index).y = s.y ∨
        index % IMAGES_PER_FILE = 0 ∧ (placeStep s img index).x = MARGIN_X ∧
          (placeStep s img index).y = MARGIN_Y)) := by
  constructor
  · intro s index img rest hfp
    rw [layoutFrom]
    congr 1
    simp [placeStep, hfp]
  · exact placeStep_failed

/-- Witness for the amended C3 at a concrete failing image. -/
theorem placement_failure_amended_witness :
    layoutFrom 1 initLayout [imgB, imgC] =
      layoutFrom 2 { initLayout with errors := initLayout.errors ++ ["b.jpg"] } [imgC] ∧
    (placeStep initLayout imgB 1).placed = initLayout.placed :=
  ⟨placement_failure_amended.1 initLayout 1 imgB [imgC] rfl,
    (placement_failure_amended.2 initLayout imgB 1 rfl).1⟩

/-! ## Normalizer (src/index.js lines 25-72)

`validateImage` is sharp's `metadata()` call: `decodable` records whether it
succeeds. `compressImage` calls sharp's resize/re-encode and catches its own
error, logging only (lines 43-45): success/failure and the produced bytes are
fields of the abstract `Compressor` collaborator. `analyzeAndCompressImages`
iterates the extension-filtered directory listing; each processed file yields
either one write into the compressed folder, one invalid-image log line, or
one compression-error log line. -/

/-- JS `String.prototype.toLowerCase()` restricted to the ASCII extensions
this program compares (embedded directly over the character list so it is
kernel-computable). -/
def lowerAscii (s : String) : String := String.mk (s.data.map Char.toLower)

structure SrcFile where
  name : String
  ext : String
  size : Nat
  decodable : Bool
  content : List Nat
deriving DecidableEq

/-- External resize/re-encode collaborator (sharp). -/
structure Compressor where
  resizeOk : List Nat → Bool
  resizeEncode : List Nat → Nat → Nat → List Nat

/-- `compressImage` (lines 36-46): `.resize({width: TARGET_WIDTH}).jpeg({quality: 80})`;
on error it only logs, so no output file appears (`none`). -/
def compressImage (c : Compressor) (input : List Nat) : Option (List Nat) :=
  if c.resizeOk input then some (c.resizeEncode input TARGET_WIDTH 80) else none

structure FsWrite where
  folder : String
  name : String
  ext : String
  content : List Nat
deriving DecidableEq

structure NormResult where
  writes : List FsWrite
  invalidLog : List String
  compressErrLog : List String
deriving DecidableEq

def NormResult.append (a b : NormResult) : NormResult :=
  NormResult.mk (a.writes ++ b.writes) (a.invalidLog ++ b.invalidLog)
    (a.compressErrLog ++ b.compressErrLog)

/-- The loop body of `analyzeAndCompressImages` (lines 54-71) for one file,
including the extension filter applied to the directory listing (lines 50-52). -/
def normStep (c : Compressor) (d : String) (f : SrcFile) : NormResult :=
  if validExts.contains (lowerAscii f.ext) = false then NormResult.mk [] [] []
  else if f.decodable = false then NormResult.mk [] [f.name] []
  else if (f.size : ℚ) / (1024 * 1024) > MAX_IMAGE_SIZE_MB then
    match compressImage c f.content with
    | some out => NormResult.mk [FsWrite.mk (compressedFolder d) f.name f.ext out] [] []
    | none => NormResult.mk [] [] [f.name]
  else NormResult.mk [FsWrite.mk (compressedFolder d) f.name f.ext f.content] [] []

def analyzeAndCompressImages (c : Compressor) (d : String) : List SrcFile → NormResult
  | [] => NormResult.mk [] [] []
  | f :: rest => (normStep c d f).append (analyzeAndCompressImages c d rest)

/-- The JS float test `stats.size / (1024*1024) > 2` agrees with the exact
integer test `size > 2*1024*1024`. -/
theorem size_check_iff (size : Nat) :
    ((size : ℚ) / (1024 * 1024) > MAX_IMAGE_SIZE_MB) ↔ size > 2097152 := by
  rw [MAX_IMAGE_SIZE_MB, gt_iff_lt, lt_div_iff₀ (by norm_num : (0 : ℚ) < 1024 * 1024),
    show ((2 : ℚ) * (1024 * 1024)) = ((2097152 : ℕ) : ℚ) by norm_num, Nat.cast_lt]

theorem NormResult.append_assoc (a b c : NormResult) :
    (a.append b).append c = a.append (b.append c) := by
  simp [NormResult.append, List.append_assoc]

theorem analyzeAndCompressImages_append (c : Compressor) (d : String)
    (l1 l2 : List SrcFile) :
    analyzeAndCompressImages c d (l1 ++ l2) =
      (analyzeAndCompressImages c d l1).append (analyzeAndCompressImages c d l2) := by
  induction l1 with
  | nil =>
    show analyzeAndCompressImages c d l2 = _
    simp [analyzeAndCompressImages, NormResult.append]
  | cons f rest ih =>
    show (normStep c d f).append (analyzeAndCompressImages c d (rest ++ l2)) = _
    rw [ih, ← NormResult.append_assoc]
    rfl

theorem normStep_writes_name (c : Compressor) (d : String) (f : SrcFile) :
    (normStep c d f).writes.map FsWrite.name = [] ∨
    (normStep c d f).writes.map FsWrite.name = [f.name] := by
  unfold normStep
  split
  · left; rfl
  split
  · left; rfl
  split
  · unfold compressImage
    split
    · right; rfl
    · left; rfl
  · right; rfl

theorem normStep_writes_mem (c : Compressor) (d : String) (f : SrcFile)
    (w : FsWrite) (hw : w ∈ (normStep c d f).writes) :
    w.folder = compressedFolder d ∧ w.name = f.name ∧ w.ext = f.ext ∧
      f.decodable = true ∧ validExts.contains (lowerAscii f.ext) = true := by
  unfold normStep at hw
  split at hw
  · simp at hw
  · rename_i hext
    split at hw
    · simp at hw
    · rename_i hdec
      have hext' : validExts.contains (lowerAscii f.ext) = true := by
        revert hext
        cases validExts.contains (lowerAscii f.ext) <;> simp
      have hdec' : f.decodable = true := by
        revert hdec
        cases f.decodable <;> simp
      split at hw
      · unfold compressImage at hw
        split at hw
        · simp at hw
          subst hw
          exact ⟨rfl, rfl, rfl, hdec', hext'⟩
        · simp at hw
      · simp at hw
        subst hw
        exact ⟨rfl, rfl, rfl, hdec', hext'⟩

theorem analyze_writes_names_sublist (c : Compressor) (d : String)
    (files : List SrcFile) :
    ((analyzeAndCompressImages c d files).writes.map FsWrite.name).Sublist
      (files.map SrcFile.name) := by
  induction files with
  | nil => simp [analyzeAndCompressImages]
  | cons f rest ih =>
    show (((normStep c d f).append (analyzeAndCompressImages c d rest)).writes.map
      FsWrite.name).Sublist _
    simp only [NormResult.append, List.map_append, List.map_cons]
    rcases normStep_writes_name c d f with h | h
    · rw [h, List.nil_append]
      exact ih.cons f.name
    · rw [h]
      exact ih.cons₂ f.name

theorem analyze_writes_folder (c : Compressor) (d : String) (files : List SrcFile) :
    ∀ w ∈ (analyzeAndCompressImages c d files).writes, w.folder = compressedFolder d := by
  induction files with
  | nil => simp [analyzeAndCompressImages]
  | cons f rest ih =>
    intro w hw
    rcases List.mem_append.mp hw with hw | hw
    · exact (normStep_writes_mem c d f w hw).1
    · exact ih w hw

theorem analyze_invalidLog_mem (c : Compressor) (d : String) (files : List SrcFile)
    (x : String) (hx : x ∈ (analyzeAndCompressImages c d files).invalidLog) :
    ∃ f ∈ files, f.name = x ∧ f.decodable = false := by
  induction files with
  | nil => simp [analyzeAndCompressImages] at hx
  | cons f rest ih =>
    rcases List.mem_append.mp hx with hx | hx
    · refine ⟨f, List.mem_cons_self _ _, ?_⟩
      revert hx
      unfold normStep
      split
      · simp
      split
      · rename_i hdec
        intro hx
        simp at hx
        subst hx
        refine ⟨rfl, ?_⟩
        revert hdec
        cases f.decodable <;> simp
      split
      · split <;> simp
      · simp
    · obtain ⟨g, hg, hgx⟩ := ih hx
      exact ⟨g, List.mem_cons_of_mem _ hg, hgx⟩

theorem compressedFolder_ne_inputFolder (d : String) :
    compressedFolder d ≠ inputFolder := by
  intro heq
  have hlen := congrArg String.length heq
  rw [compressedFolder, String.length_append] at hlen
  have h1 : ("./IMG_BANK_COMPRESSED_" : String).length = 22 := by decide
  have h2 : (inputFolder : String).length = 20 := by decide
  rw [h1, inputFolder] at hlen
  rw [show ("./IMG_BANK_ACR_TOTAL" : String).length = 20 by decide] at hlen
  omega

theorem normStep_passthrough (c : Compressor) (d : String) (f : SrcFile)
    (hext : validExts.contains (lowerAscii f.ext) = true) (hdec : f.decodable = true)
    (hsize : ¬ (f.size : ℚ) / (1024 * 1024) > MAX_IMAGE_SIZE_MB) :
    normStep c d f =
      NormResult.mk [FsWrite.mk (compressedFolder d) f.name f.ext f.content] [] [] := by
  unfold normStep
  rw [hext, hdec, if_neg (by simp), if_neg (by simp), if_neg hsize]

theorem normStep_compress (c : Compressor) (d : String) (f : SrcFile)
    (hext : validExts.contains (lowerAscii f.ext) = true) (hdec : f.decodable = true)
    (hsize : (f.size : ℚ) / (1024 * 1024) > MAX_IMAGE_SIZE_MB)
    (hok : c.resizeOk f.content = true) :
    normStep c d f =
      NormResult.mk
        [FsWrite.mk (compressedFolder d) f.name f.ext
          (c.resizeEncode f.content TARGET_WIDTH 80)] [] [] := by
  unfold normStep compressImage
  rw [hext, hdec, if_neg (by simp), if_neg (by simp), if_pos hsize, hok, if_pos rfl]

theorem normStep_compress_fail (c : Compressor) (d : String) (f : SrcFile)
    (hext : validExts.contains (lowerAscii f.ext) = true) (hdec : f.decodable = true)
    (hsize : (f.size : ℚ) / (1024 * 1024) > MAX_IMAGE_SIZE_MB)
    (hfail : c.resizeOk f.content = false) :
    normStep c d f = NormResult.mk [] [] [f.name] := by
  unfold normStep compressImage
  rw [hext, hdec, if_neg (by simp), if_neg (by simp), if_pos hsize, hfail,
    if_neg (by simp)]

theorem normStep_invalid (c : Compressor) (d : String) (f : SrcFile)
    (hext : validExts.contains (lowerAscii f.ext) = true) (hdec : f.decodable = false) :
    normStep c d f = NormResult.mk [] [f.name] [] := by
  unfold normStep
  rw [hext, hdec, if_neg (by simp), if_pos rfl]

/-- A file whose name appears nowhere in `l` contributes nothing to the
name-filtered writes of the normalization of `l`. -/
theorem analyze_filter_other (c : Compressor) (d : String) (l : List SrcFile)
    (name : String) (hl : name ∉ l.map SrcFile.name) :
    (analyzeAndCompressImages c d l).writes.filter (fun w => w.name == name) = [] := by
  rw [List.filter_eq_nil_iff]
  intro w hw hbeq
  have hwname : w.name = name := by simpa using hbeq
  exact hl (hwname ▸ (analyze_writes_names_sublist c d l).subset
    (List.mem_map_of_mem FsWrite.name hw))

theorem nodup_split_name (l1 l2 : List SrcFile) (f : SrcFile)
    (hnodup : ((l1 ++ f :: l2).map SrcFile.name).Nodup) :
    f.name ∉ l1.map SrcFile.name ∧ f.name ∉ l2.map SrcFile.name := by
  rw [List.map_append, List.map_cons, List.nodup_append] at hnodup
  obtain ⟨_, h2, hdis⟩ := hnodup
  exact ⟨fun hm => hdis hm (List.mem_cons_self _ _), (List.nodup_cons.mp h2).1⟩

/-- Claim C6: over-threshold decodable images are resized/re-encoded with max
pixel width 1920 at quality 80; at-or-below-threshold decodable images are
copied byte-identically; every write targets the compressed working folder,
which is distinct from the source folder, so sources are never mutated. -/
theorem normalizer_policy (c : Compressor) (d : String) (l1 l2 : List SrcFile)
    (f : SrcFile)
    (hnodup : ((l1 ++ f :: l2).map SrcFile.name).Nodup)
    (hext : validExts.contains (lowerAscii f.ext) = true)
    (hdec : f.decodable = true) :
    (¬ (f.size : ℚ) / (1024 * 1024) > MAX_IMAGE_SIZE_MB →
      (analyzeAndCompressImages c d (l1 ++ f :: l2)).writes.filter
          (fun w => w.name == f.name) =
        [FsWrite.mk (compressedFolder d) f.name f.ext f.content]) ∧
    ((f.size : ℚ) / (1024 * 1024) > MAX_IMAGE_SIZE_MB → c.resizeOk f.content = true →
      (analyzeAndCompressImages c d (l1 ++ f :: l2)).writes.filter
          (fun w => w.name == f.name) =
        [FsWrite.mk (compressedFolder d) f.name f.ext
          (c.resizeEncode f.content TARGET_WIDTH 80)]) ∧
    (∀ w ∈ (analyzeAndCompressImages c d (l1 ++ f :: l2)).writes,
      w.folder = compressedFolder d) ∧
    compressedFolder d ≠ inputFolder := by
  obtain ⟨hf1, hf2⟩ := nodup_split_name l1 l2 f hnodup
  have hsplit : (analyzeAndCompressImages c d (l1 ++ f :: l2)).writes =
      (analyzeAndCompressImages c d l1).writes ++
        ((normStep c d f).writes ++ (analyzeAndCompressImages c d l2).writes) := by
    rw [analyzeAndCompressImages_append]
    rfl
  have hfilter : ∀ res : NormResult, normStep c d f = res →
      (analyzeAndCompressImages c d (l1 ++ f :: l2)).writes.filter
          (fun w => w.name == f.name) = res.writes.filter (fun w => w.name == f.name) := by
    intro res hres
    rw [hsplit, List.filter_append, List.filter_append,
      analyze_filter_other c d l1 f.name hf1, analyze_filter_other c d l2 f.name hf2,
      hres]
    simp
  refine ⟨?_, ?_, ?_, compressedFolder_ne_inputFolder d⟩
  · intro hsize
    rw [hfilter _ (normStep_passthrough c d f hext hdec hsize)]
    simp
  · intro hsize hok
    rw [hfilter _ (normStep_compress c d f hext hdec hsize hok)]
    simp
  · exact analyze_writes_folder c d (l1 ++ f :: l2)

/-- A sample run date used by concrete witnesses. -/
def dateStr : String := "D"

def wCompressor : Compressor :=
  Compressor.mk (fun _ => true) (fun input w q => w :: q :: input)

def fSmall : SrcFile := SrcFile.mk ("small.jpg") (".jpg") 100 true [1, 2, 3]

def fBig : SrcFile := SrcFile.mk ("big.jpg") (".jpg") 3000000 true [9, 9]

/-- Witness for C6: a 100-byte file is copied byte-identically, a 3000000-byte
file is handed to the resizer with width 1920 / quality 80. -/
theorem normalizer_policy_witness :
    (analyzeAndCompressImages wCompressor dateStr ([] ++ fSmall :: [])).writes.filter
        (fun w => w.name == fSmall.name) =
      [FsWrite.mk (compressedFolder dateStr) fSmall.name fSmall.ext fSmall.content] ∧
    (analyzeAndCompressImages wCompressor dateStr ([] ++ fBig :: [])).writes.filter
        (fun w => w.name == fBig.name) =
      [FsWrite.mk (compressedFolder dateStr) fBig.name fBig.ext
        (wCompressor.resizeEncode fBig.content TARGET_WIDTH 80)] := by
  constructor
  · exact (normalizer_policy wCompressor dateStr [] [] fSmall (by decide) (by decide)
      (by decide)).1 (by rw [size_check_iff]; decide)
  · exact (normalizer_policy wCompressor dateStr [] [] fBig (by decide) (by decide)
      (by decide)).2.1 (by rw [size_check_iff]; decide) (by decide)

/-! ## Pipeline composition

`createPDFsFromImages` re-reads the compressed folder (its entries are the
normalizer's writes, in creation order, which the spec fixes as the canonical
enumeration order), filters by extension again, chunks, and lays out each
chunk. `ImgMeta` is what `doc.openImage` learns about a file on disk
(dimensions, and whether the external writer fails on it). -/

structure ImgMeta where
  width : Nat
  height : Nat
  failAt : Option FailPoint

def mkImg (env : String → ImgMeta) (n : String) : ImgFile :=
  ImgFile.mk n (env n).width (env n).height (env n).failAt

/-- The filtered file list of `createPDFsFromImages` (lines 137-139). -/
def chunkInput (r : NormResult) : List String :=
  (r.writes.filter fun w => validExts.contains (lowerAscii w.ext)).map FsWrite.name

def pipelineChunks (r : NormResult) : List (List String) := chunks15 (chunkInput r)

/-- All placements of the merged final document, chunk documents concatenated
in sequence-index order. -/
def pipelineFinalPlacements (env : String → ImgMeta) (r : NormResult) : List Placement :=
  mergePDFs ((pipelineChunks r).map fun ch => (createPDF (ch.map (mkImg env))).placed)

theorem placeStep_placed_sub (s : LayoutState) (img : ImgFile) (index : Nat)
    (p : Placement) (hp : p ∈ (placeStep s img index).placed) :
    p ∈ s.placed ∨ p.name = img.name := by
  cases hfa : img.failAt with
  | none =>
    obtain ⟨q, hq1, hqname, _⟩ := placeStep_cursor_success s img index hfa
    rw [hq1] at hp
    rcases List.mem_append.mp hp with hp | hp
    · exact Or.inl hp
    · right
      rw [List.mem_singleton.mp hp]
      exact hqname
  | some fp =>
    rw [(placeStep_failed s img index (by rw [hfa]; rfl)).1] at hp
    exact Or.inl hp

theorem layoutFrom_placed_names :
    ∀ (imgs : List ImgFile) (index : Nat) (s : LayoutState) (p : Placement),
      p ∈ (layoutFrom index s imgs).placed →
      p ∈ s.placed ∨ p.name ∈ imgs.map ImgFile.name := by
  intro imgs
  induction imgs with
  | nil => exact fun index s p hp => Or.inl hp
  | cons img rest ih =>
    intro index s p hp
    rcases ih (index + 1) (placeStep s img index) p hp with h | h
    · rcases placeStep_placed_sub s img index p h with h | h
      · exact Or.inl h
      · exact Or.inr (by rw [List.map_cons, h]; exact List.mem_cons_self _ _)
    · exact Or.inr (List.mem_cons_of_mem _ h)

theorem mem_chunkInput_mem_writes (r : NormResult) (n : String)
    (hn : n ∈ chunkInput r) : n ∈ r.writes.map FsWrite.name := by
  rw [chunkInput] at hn
  obtain ⟨w, hw, hwn⟩ := List.mem_map.mp hn
  exact hwn ▸ List.mem_map_of_mem _ (List.mem_of_mem_filter hw)

theorem not_mem_pipelineChunks (r : NormResult) (n : String)
    (hn : n ∉ r.writes.map FsWrite.name) :
    ∀ ch ∈ pipelineChunks r, n ∉ ch := by
  intro ch hch hmem
  refine hn (mem_chunkInput_mem_writes r n ?_)
  rw [← chunks15_join (chunkInput r)]
  exact List.mem_flatten.mpr ⟨ch, hch, hmem⟩

theorem not_mem_pipelineFinalPlacements (env : String → ImgMeta) (r : NormResult)
    (n : String) (hch : ∀ ch ∈ pipelineChunks r, n ∉ ch) :
    n ∉ (pipelineFinalPlacements env r).map Placement.name := by
  intro hmem
  obtain ⟨p, hp, hpn⟩ := List.mem_map.mp hmem
  rw [pipelineFinalPlacements, mergePDFs_eq_flatten] at hp
  obtain ⟨doc, hdoc, hpdoc⟩ := List.mem_flatten.mp hp
  obtain ⟨ch, hchmem, hchdoc⟩ := List.mem_map.mp hdoc
  rw [← hchdoc, createPDF] at hpdoc
  rcases layoutFrom_placed_names _ 0 initLayout p hpdoc with h | h
  · simp [initLayout] at h
  · rw [List.map_map] at h
    have hmm : (ImgFile.name ∘ mkImg env) = id := by
      funext m
      rfl
    rw [hmm, List.map_id] at h
    exact hch ch hchmem (hpn ▸ h)

/-! ## Invalid-image containment (claim C7) -/

/-- Claim C7: a source file that cannot be decoded is reported InvalidImage
(logged), produces no normalized image, appears in no chunk and on no page of
the final document, and the rest of the run is byte-for-byte what it would
have been without that file (so the run still succeeds and all other images
are unaffected). -/
theorem invalid_image_containment (c : Compressor) (d : String)
    (env : String → ImgMeta) (l1 l2 : List SrcFile) (f : SrcFile)
    (hnodup : ((l1 ++ f :: l2).map SrcFile.name).Nodup)
    (hext : validExts.contains (lowerAscii f.ext) = true)
    (hdec : f.decodable = false) :
    f.name ∉ (analyzeAndCompressImages c d (l1 ++ f :: l2)).writes.map FsWrite.name ∧
    f.name ∈ (analyzeAndCompressImages c d (l1 ++ f :: l2)).invalidLog ∧
    (∀ ch ∈ pipelineChunks (analyzeAndCompressImages c d (l1 ++ f :: l2)),
      f.name ∉ ch) ∧
    f.name ∉ (pipelineFinalPlacements env
      (analyzeAndCompressImages c d (l1 ++ f :: l2))).map Placement.name ∧
    (analyzeAndCompressImages c d (l1 ++ f :: l2)).writes =
      (analyzeAndCompressImages c d (l1 ++ l2)).writes := by
  obtain ⟨hf1, hf2⟩ := nodup_split_name l1 l2 f hnodup
  have hstep : normStep c d f = NormResult.mk [] [f.name] [] :=
    normStep_invalid c d f hext hdec
  have hw : (analyzeAndCompressImages c d (l1 ++ f :: l2)).writes =
      (analyzeAndCompressImages c d l1).writes ++
        (analyzeAndCompressImages c d l2).writes := by
    rw [analyzeAndCompressImages_append]
    show (analyzeAndCompressImages c d l1).writes ++
      ((normStep c d f).writes ++ (analyzeAndCompressImages c d l2).writes) = _
    rw [hstep]
    rfl
  have hnames : f.name ∉
      (analyzeAndCompressImages c d (l1 ++ f :: l2)).writes.map FsWrite.name := by
    rw [hw, List.map_append]
    intro hmem
    rcases List.mem_append.mp hmem with h | h
    · exact hf1 ((analyze_writes_names_sublist c d l1).subset h)
    · exact hf2 ((analyze_writes_names_sublist c d l2).subset h)
  refine ⟨hnames, ?_, not_mem_pipelineChunks _ _ hnames,
    not_mem_pipelineFinalPlacements env _ _ (not_mem_pipelineChunks _ _ hnames), ?_⟩
  · rw [analyzeAndCompressImages_append]
    show f.name ∈ (analyzeAndCompressImages c d l1).invalidLog ++
      ((normStep c d f).invalidLog ++ (analyzeAndCompressImages c d l2).invalidLog)
    rw [hstep]
    exact List.mem_append.mpr (Or.inr (List.mem_cons_self _ _))
  · rw [hw, analyzeAndCompressImages_append]
    rfl

def fCorrupt : SrcFile := SrcFile.mk ("corrupt.jpg") (".jpg") 100 false [0]

/-- Witness for C7: one corrupt file among two valid ones is logged, yields no
write, and the writes equal those of the run without it. -/
theorem invalid_image_containment_witness :
    "corrupt.jpg" ∉ (analyzeAndCompressImages wCompressor dateStr
      [fSmall, fCorrupt, fBig]).writes.map FsWrite.name ∧
    "corrupt.jpg" ∈ (analyzeAndCompressImages wCompressor dateStr
      [fSmall, fCorrupt, fBig]).invalidLog ∧
    (analyzeAndCompressImages wCompressor dateStr [fSmall, fCorrupt, fBig]).writes =
      (analyzeAndCompressImages wCompressor dateStr [fSmall, fBig]).writes := by
  have h := invalid_image_containment wCompressor dateStr
    (fun _ => ImgMeta.mk 150 100 none) [fSmall] [fBig] fCorrupt
    (by decide) (by decide) (by decide)
  exact ⟨h.1, h.2.1, h.2.2.2.2⟩

/-! ## Silent loss on compression failure (claim C10) -/

/-- Claim C10 (implicit): an over-threshold decodable image whose
resize/re-encode fails is only logged on the compression-error channel: no
normalized file is written, it is not classified InvalidImage, it is absent
from every chunk and from the final document, and the rest of the run is
exactly what it would have been without the file — no error value is raised,
so the run can still end reported as successful. -/
theorem compression_failure_silent_loss (c : Compressor) (d : String)
    (env : String → ImgMeta) (l1 l2 : List SrcFile) (f : SrcFile)
    (hnodup : ((l1 ++ f :: l2).map SrcFile.name).Nodup)
    (hext : validExts.contains (lowerAscii f.ext) = true)
    (hdec : f.decodable = true)
    (hsize : (f.size : ℚ) / (1024 * 1024) > MAX_IMAGE_SIZE_MB)
    (hfail : c.resizeOk f.content = false) :
    f.name ∉ (analyzeAndCompressImages c d (l1 ++ f :: l2)).writes.map FsWrite.name ∧
    f.name ∈ (analyzeAndCompressImages c d (l1 ++ f :: l2)).compressErrLog ∧
    f.name ∉ (analyzeAndCompressImages c d (l1 ++ f :: l2)).invalidLog ∧
    (∀ ch ∈ pipelineChunks (analyzeAndCompressImages c d (l1 ++ f :: l2)),
      f.name ∉ ch) ∧
    f.name ∉ (pipelineFinalPlacements env
      (analyzeAndCompressImages c d (l1 ++ f :: l2))).map Placement.name ∧
    (analyzeAndCompressImages c d (l1 ++ f :: l2)).writes =
      (analyzeAndCompressImages c d (l1 ++ l2)).writes := by
  obtain ⟨hf1, hf2⟩ := nodup_split_name l1 l2 f hnodup
  have hstep : normStep c d f = NormResult.mk [] [] [f.name] :=
    normStep_compress_fail c d f hext hdec hsize hfail
  have hw : (analyzeAndCompressImages c d (l1 ++ f :: l2)).writes =
      (analyzeAndCompressImages c d l1).writes ++
        (analyzeAndCompressImages c d l2).writes := by
    rw [analyzeAndCompressImages_append]
    show (analyzeAndCompressImages c d l1).writes ++
      ((normStep c d f).writes ++ (analyzeAndCompressImages c d l2).writes) = _
    rw [hstep]
    rfl
  have hnames : f.name ∉
      (analyzeAndCompressImages c d (l1 ++ f :: l2)).writes.map FsWrite.name := by
    rw [hw, List.map_append]
    intro hmem
    rcases List.mem_append.mp hmem with h | h
    · exact hf1 ((analyze_writes_names_sublist c d l1).subset h)
    · exact hf2 ((analyze_writes_names_sublist c d l2).subset h)
  refine ⟨hnames, ?_, ?_, not_mem_pipelineChunks _ _ hnames,
    not_mem_pipelineFinalPlacements env _ _ (not_mem_pipelineChunks _ _ hnames), ?_⟩
  · rw [analyzeAndCompressImages_append]
    show f.name ∈ (analyzeAndCompressImages c d l1).compressErrLog ++
      ((normStep c d f).compressErrLog ++
        (analyzeAndCompressImages c d l2).compressErrLog)
    rw [hstep]
    exact List.mem_append.mpr (Or.inr (List.mem_cons_self _ _))
  · rw [analyzeAndCompressImages_append]
    show f.name ∉ (analyzeAndCompressImages c d l1).invalidLog ++
      ((normStep c d f).invalidLog ++ (analyzeAndCompressImages c d l2).invalidLog)
    rw [hstep]
    intro hmem
    rcases List.mem_append.mp hmem with h | h
    · obtain ⟨g, hg, hgn, _⟩ := analyze_invalidLog_mem c d l1 f.name h
      exact hf1 (hgn ▸ List.mem_map_of_mem SrcFile.name hg)
    · rcases List.mem_append.mp h with h | h
      · simp at h
      · obtain ⟨g, hg, hgn, _⟩ := analyze_invalidLog_mem c d l2 f.name h
        exact hf2 (hgn ▸ List.mem_map_of_mem SrcFile.name hg)
  · rw [hw, analyzeAndCompressImages_append]
    rfl

def cFailCompressor : Compressor :=
  Compressor.mk (fun _ => false) (fun input w q => w :: q :: input)

def fBig2 : SrcFile := SrcFile.mk ("huge.jpg") (".jpg") 5000000 true [7]

/-- Witness for C10: the 5000000-byte file whose resize fails leaves no
write, shows up only in the compression-error log, and the writes equal those
of the run without it. -/
theorem compression_failure_silent_loss_witness :
    "huge.jpg" ∉ (analyzeAndCompressImages cFailCompressor dateStr
      [fSmall, fBig2]).writes.map FsWrite.name ∧
    "huge.jpg" ∈ (analyzeAndCompressImages cFailCompressor dateStr
      [fSmall, fBig2]).compressErrLog ∧
    "huge.jpg" ∉ (analyzeAndCompressImages cFailCompressor dateStr
      [fSmall, fBig2]).invalidLog := by
  have h := compression_failure_silent_loss cFailCompressor dateStr
    (fun _ => ImgMeta.mk 150 100 none) [fSmall] [] fBig2
    (by decide) (by decide) (by decide) (by rw [size_check_iff]; decide) (by decide)
  exact ⟨h.1, h.2.1, h.2.2.1⟩

/-! ## Parallel generation orchestrator (src/index.js lines 136-150)

Each chunk's task is a pure function of the chunk (and its 1-based pdf
index). Concurrency is modelled by a completion schedule `sched`: the order
in which tasks finish. `runTasks` is the stream of completion events
(task index, task result); `Promise.all` fills slot `i` of its result array
with the completion event of task `i`, regardless of when it arrives. -/

def runTasks {α : Type} (tasks : List α) (sched : List Nat) : List (Nat × α) :=
  sched.filterMap fun i => (tasks[i]?).map fun t => (i, t)

def promiseAll {α : Type} (tasks : List α) (sched : List Nat) : List (Option α) :=
  (List.range tasks.length).map fun j =>
    ((runTasks tasks sched).find? fun p => p.1 == j).map Prod.snd

/-- The task list built by the loop at lines 141-145: task `i` produces the
intermediate document `pdfOutputPath d (i+1)` with the pages laid out from
chunk `i`. -/
def chunkTasks (env : String → ImgMeta) (d : String) (r : NormResult) :
    List (String × List Placement) :=
  (pipelineChunks r).enum.map fun pr =>
    (pdfOutputPath d (pr.1 + 1), (createPDF (pr.2.map (mkImg env))).placed)

def createPDFsFromImages (env : String → ImgMeta) (d : String) (r : NormResult)
    (sched : List Nat) : List (Option (String × List Placement)) :=
  promiseAll (chunkTasks env d r) sched

/-- Merge whatever the orchestrator returned, in returned order. -/
def finalFromResults (results : List (Option (String × List Placement))) :
    List Placement :=
  mergePDFs ((results.filterMap id).map Prod.snd)

theorem runTasks_mem {α : Type} (tasks : List α) (sched : List Nat) (p : Nat × α) :
    p ∈ runTasks tasks sched ↔ p.1 ∈ sched ∧ tasks[p.1]? = some p.2 := by
  rw [runTasks, List.mem_filterMap]
  constructor
  · rintro ⟨i, hi, hmap⟩
    obtain ⟨t, hti, hp⟩ := Option.map_eq_some'.mp hmap
    rw [← hp]
    exact ⟨hi, hti⟩
  · rintro ⟨hs, hg⟩
    exact ⟨p.1, hs, by rw [hg]; rfl⟩

theorem promiseAll_perm {α : Type} (tasks : List α) (sched : List Nat)
    (hperm : sched.Perm (List.range tasks.length)) :
    promiseAll tasks sched = tasks.map some := by
  apply List.ext_getElem
  · simp [promiseAll]
  intro n h1 h2
  have hn : n < tasks.length := by
    simpa [promiseAll] using h1
  have hgoal : ((runTasks tasks sched).find? fun p => p.1 == n).map Prod.snd =
      some tasks[n] := by
    have hmemsched : n ∈ sched := hperm.mem_iff.mpr (List.mem_range.mpr hn)
    have hmem : ((n, tasks[n]) : Nat × α) ∈ runTasks tasks sched :=
      (runTasks_mem tasks sched _).mpr ⟨hmemsched, List.getElem?_eq_getElem hn⟩
    have hsome : (((runTasks tasks sched).find? fun p => p.1 == n)).isSome :=
      List.find?_isSome.mpr ⟨(n, tasks[n]), hmem, by simp⟩
    obtain ⟨q, hq⟩ := Option.isSome_iff_exists.mp hsome
    have hq1 : q.1 = n := by
      have := List.find?_some hq
      simpa using this
    have hqmem : q ∈ runTasks tasks sched := List.mem_of_find?_eq_some hq
    have hq2 : q.2 = tasks[n] := by
      have hget := ((runTasks_mem tasks sched q).mp hqmem).2
      rw [hq1, List.getElem?_eq_getElem hn] at hget
      exact (Option.some.inj hget).symm
    rw [hq]
    simp [hq2]
  simp only [promiseAll, List.getElem_map, List.getElem_range]
  exact hgoal

/-- Claim C8: the orchestrator's result is the task results in ascending
sequence-index order (intermediate-document identities `output_1, output_2,
...`), for EVERY completion schedule; two executions differing only in
completion order produce identical results and an identical final document. -/
theorem completion_order_independence (env : String → ImgMeta) (d : String)
    (r : NormResult) (sched1 sched2 : List Nat)
    (h1 : sched1.Perm (List.range (chunkTasks env d r).length))
    (h2 : sched2.Perm (List.range (chunkTasks env d r).length)) :
    createPDFsFromImages env d r sched1 = createPDFsFromImages env d r sched2 ∧
    createPDFsFromImages env d r sched1 = (chunkTasks env d r).map some ∧
    (createPDFsFromImages env d r sched1).map (Option.map Prod.fst) =
      (List.range (pipelineChunks r).length).map
        (fun i => some (pdfOutputPath d (i + 1))) ∧
    finalFromResults (createPDFsFromImages env d r sched1) =
      finalFromResults (createPDFsFromImages env d r sched2) := by
  have e1 : createPDFsFromImages env d r sched1 = (chunkTasks env d r).map some :=
    promiseAll_perm _ _ h1
  have e2 : createPDFsFromImages env d r sched2 = (chunkTasks env d r).map some :=
    promiseAll_perm _ _ h2
  refine ⟨e1.trans e2.symm, e1, ?_, by rw [e1.trans e2.symm]⟩
  rw [e1, chunkTasks, List.map_map, List.map_map]
  have : ((Option.map Prod.fst ∘ some) ∘ fun pr : Nat × List String =>
      (pdfOutputPath d (pr.1 + 1), (createPDF (pr.2.map (mkImg env))).placed)) =
      (fun i => some (pdfOutputPath d (i + 1))) ∘ Prod.fst := by
    funext pr
    rfl
  rw [this, ← List.map_map, List.enum_map_fst]

def wEnv : String → ImgMeta := fun _ => ImgMeta.mk 150 100 none

def wNorm : NormResult :=
  NormResult.mk (List.replicate 16 (FsWrite.mk ("F") ("x.jpg") (".jpg") [])) [] []

/-- Witness for C8: 16 normalized images make two chunk tasks; the schedules
completing task 2 first or task 1 first return the same, index-ordered,
result. -/
theorem completion_order_independence_witness :
    createPDFsFromImages wEnv dateStr wNorm [1, 0] =
      createPDFsFromImages wEnv dateStr wNorm [0, 1] ∧
    createPDFsFromImages wEnv dateStr wNorm [1, 0] = (chunkTasks wEnv dateStr wNorm).map some := by
  have h := completion_order_independence wEnv dateStr wNorm [1, 0] [0, 1]
    (by decide) (by decide)
  exact ⟨h.1, h.2.1⟩

/-! ## Cleanup gating (src/index.js lines 168-199)

The main IIFE is `try { analyze; createPDFs; merge; deleteFolder(compressed);
deleteFolder(pdf); } catch { log }`: an exception in any awaited stage jumps
to the catch before either `deleteFolder` call runs. Stage outcomes are
abstracted as `Except` values; `MainTrace` records which deletions ran and
whether the run ended in the success log line. -/

structure MainTrace where
  deletedCompressed : Bool
  deletedPdfFolder : Bool
  success : Bool
deriving DecidableEq

def mainRun (norm : Except String Unit) (gen : Except String (List String))
    (mrg : List String → Except String Unit) : MainTrace :=
  match norm with
  | Except.error _ => MainTrace.mk false false false
  | Except.ok _ =>
    match gen with
    | Except.error _ => MainTrace.mk false false false
    | Except.ok pdfs =>
      match mrg pdfs with
      | Except.error _ => MainTrace.mk false false false
      | Except.ok _ => MainTrace.mk true true true

/-- An on-disk directory entry; `deleteFolder` (lines 169-181) recurses into
directories and unlinks files, then removes the folder itself. Both functions
below list the deleted/present paths as segment lists relative to the
enclosing directory. -/
inductive Entry : Type
  | file : String → Entry
  | dir : String → List Entry → Entry

mutual

def deleteFolder : Entry → List (List String)
  | Entry.file n => [[n]]
  | Entry.dir n es => (deleteFolderChildren es).map (fun p => n :: p) ++ [[n]]

def deleteFolderChildren : List Entry → List (List String)
  | [] => []
  | e :: es => deleteFolder e ++ deleteFolderChildren es

end

mutual

def entryPaths : Entry → List (List String)
  | Entry.file n => [[n]]
  | Entry.dir n es => [n] :: (entryPathsChildren es).map (fun p => n :: p)

def entryPathsChildren : List Entry → List (List String)
  | [] => []
  | e :: es => entryPaths e ++ entryPathsChildren es

end

mutual

theorem deleteFolder_perm : ∀ e : Entry, (deleteFolder e).Perm (entryPaths e)
  | Entry.file n => List.Perm.refl _
  | Entry.dir n es => by
    rw [deleteFolder, entryPaths]
    refine List.perm_append_comm.trans ?_
    exact ((deleteFolderChildren_perm es).map _).cons [n]

theorem deleteFolderChildren_perm :
    ∀ es : List Entry, (deleteFolderChildren es).Perm (entryPathsChildren es)
  | [] => List.Perm.refl _
  | e :: es => by
    rw [deleteFolderChildren, entryPathsChildren]
    exact (deleteFolder_perm e).append (deleteFolderChildren_perm es)

end

/-- Claim C9: the two working areas are removed if and only if normalization,
generation AND merge all completed successfully (the success log line is
reached); any earlier failure reaches the catch block and no cleanup runs.
`deleteFolder` is genuinely recursive removal: the deleted paths are exactly
the paths present under the folder. -/
theorem cleanup_gating :
    (∀ (norm : Except String Unit) (gen : Except String (List String))
        (mrg : List String → Except String Unit),
      ((mainRun norm gen mrg).deletedCompressed = true ∧
        (mainRun norm gen mrg).deletedPdfFolder = true) ↔
      (∃ pdfs, norm = Except.ok () ∧ gen = Except.ok pdfs ∧
        mrg pdfs = Except.ok ())) ∧
    (∀ (norm : Except String Unit) (gen : Except String (List String))
        (mrg : List String → Except String Unit),
      (mainRun norm gen mrg).deletedCompressed = (mainRun norm gen mrg).success ∧
      (mainRun norm gen mrg).deletedPdfFolder = (mainRun norm gen mrg).success) ∧
    (∀ e : Entry, (deleteFolder e).Perm (entryPaths e)) := by
  refine ⟨?_, ?_, deleteFolder_perm⟩
  · intro norm gen mrg
    cases norm with
    | error e => simp [mainRun]
    | ok u =>
      cases u
      cases gen with
      | error e => simp [mainRun]
      | ok pdfs =>
        cases hm : mrg pdfs with
        | error e =>
          simp only [mainRun, hm]
          constructor
          · rintro ⟨hc, _⟩
            cases hc
          · rintro ⟨pdfs2, _, hp, hmk⟩
            cases hp
            rw [hm] at hmk
            cases hmk
        | ok v =>
          cases v
          constructor
          · intro _
            exact ⟨pdfs, rfl, rfl, hm⟩
          · intro _
            constructor <;> simp [mainRun, hm]
  · intro norm gen mrg
    cases norm with
    | error e => simp [mainRun]
    | ok u =>
      cases u
      cases gen with
      | error e => simp [mainRun]
      | ok pdfs =>
        cases hm : mrg pdfs with
        | error e => simp [mainRun, hm]
        | ok v => cases v; simp [mainRun, hm]

end ImgBank
